import Mathlib

/-!
Verification of the view-state coordinator of the `imgv` image viewer
(`canvas.go`).  The Go code is shallowly embedded: `image.Point` and image
bounds become structures over `Int` (Go `int` arithmetic never approaches
overflow here), the `canvas` goroutine's state becomes an explicit state
record, and each channel message becomes an `Event` processed by a `step`
function.  Side effects on the window collaborator (painting, title
changes, clearing, resizing) are recorded as an `Output` list.  A slice
index that Go would panic on, and the nil-pointer method call in the
resize handler, are modelled by `step` returning `none`.
-/

/-- Go `image.Point`: a 2D point with integer coordinates. -/
structure Point where
  x : Int
  y : Int
deriving Repr, DecidableEq

/-- Go `image.Rectangle`, flattened: min and max corners. `Dx`/`Dy` are
the width and height, exactly as in Go's `image` package. -/
structure Rect where
  minX : Int
  minY : Int
  maxX : Int
  maxY : Int
deriving Repr, DecidableEq

def Rect.dx (r : Rect) : Int := r.maxX - r.minX

def Rect.dy (r : Rect) : Int := r.maxY - r.minY

/-- The `vimage` fields the coordinator reads: `Bounds()` and `name`. -/
structure VImage where
  rect : Rect
  name : String
deriving Repr, DecidableEq

/-- The function `originTrans(pt, win, img)` from canvas.go.  `ww`/`wh` are the live
window geometry (`win.Geom.Width()`, `win.Geom.Height()`); a `none`
image is Go's nil `*vimage`. -/
def originTrans (pt : Point) (ww wh : Int) (img : Option VImage) : Point :=
  match img with
  | none => ⟨0, 0⟩
  | some img =>
    let dw := img.rect.dx - ww
    let dh := img.rect.dy - wh
    let x0 := min (img.rect.minX + dw) (max pt.x 0)
    let y0 := min (img.rect.minY + dh) (max pt.y 0)
    let x1 := if img.rect.dx < ww then 0 else x0
    let y1 := if img.rect.dy < wh then 0 else y0
    ⟨x1, y1⟩

/-- Effects the coordinator sends to its collaborators, in emission order:
`win.paint` (with the image painted and the translated origin),
`win.nameSet`, `win.ClearAll`, `win.Resize`, and a ping on
`imgLoadChans[i]`. -/
inductive Output where
  | paint (img : VImage) (pt : Point)
  | nameSet (s : String)
  | clearAll
  | resizeWin (w h : Int)
  | fireLoad (i : Nat)
deriving Repr, DecidableEq

/-- The function `show(win, img, pt)` from canvas.go: no-op on a nil image, otherwise
re-clamps `pt` through `originTrans`, paints the visible sub-image and
sets the window title. -/
def showWin (ww wh : Int) (img : Option VImage) (pt : Point) : List Output :=
  match img with
  | none => []
  | some img =>
    let pt := originTrans pt ww wh (some img)
    [Output.paint img pt,
     Output.nameSet (img.name ++ " (" ++ toString img.rect.dx ++ "x"
       ++ toString img.rect.dy ++ ")")]

/-- The parameters the `canvas` goroutine closes over: the live window
geometry and the display-name list (`names`, of length `nimgs`). -/
structure Cfg where
  ww : Int
  wh : Int
  names : List String

/-- The mutable state owned by the `canvas` goroutine: the image slots
(`imgs`, nil = still loading), which load triggers are still armed
(`imgLoadChans[i] != nil`), `current`, `origin`, and the transient pan
state. -/
structure CState where
  imgs : List (Option VImage)
  loadChans : List Bool
  current : Nat
  origin : Point
  panStart : Point
  panOrigin : Point
deriving Repr, DecidableEq

/-- Index normalization at the top of `setImage`: `if i >= len(imgs) { i = 0 }`
then `if i < 0 { i = len(imgs) - 1 }`, in that order. -/
def normIdx (n i : Int) : Int :=
  let i1 := if i ≥ n then 0 else i
  if i1 < 0 then n - 1 else i1

/-- The closure `setImage(i, pt)` from canvas.go.  Returns `none` exactly when the Go
code would panic indexing `imgs[i]` (possible only for an empty slice,
i.e. `nimgs = 0`; the program always runs with `nimgs ≥ 1` and `names`
of the same length, so the `getD` defaults are never reached there). -/
def setImage (cfg : Cfg) (s : CState) (i0 : Int) (pt : Point) :
    Option (CState × List Output) :=
  let n : Int := s.imgs.length
  let j := normIdx n i0
  if 0 ≤ j ∧ j < n then
    let i := j.toNat
    let clearOut : List Output := if s.current = i then [] else [Output.clearAll]
    match s.imgs.getD i none with
    | none =>
      let outs := clearOut ++ [Output.nameSet (cfg.names.getD i "" ++ " - Loading...")]
      if s.loadChans.getD i false then
        some ({ s with current := i, loadChans := s.loadChans.set i false },
          outs ++ [Output.fireLoad i])
      else
        some ({ s with current := i }, outs)
    | some img =>
      let o := originTrans pt cfg.ww cfg.wh (some img)
      some ({ s with current := i, origin := o },
        clearOut ++ showWin cfg.ww cfg.wh (some img) o)
  else
    none

/-- One message for the coordinator: the six channel cases of the select
loop in `canvas`.  `draw` carries the origin-transform closure sent on
`drawChan`. -/
inductive Event where
  | loadDone (index : Nat) (img : VImage)
  | draw (f : Point → Point)
  | resizeToImage
  | prevImg
  | nextImg
  | panStart (pt : Point)
  | panStep (pt : Point)
  | panEnd

/-- One iteration of the select loop in the `canvas` goroutine.  `none`
models a Go panic: an out-of-range slice index, or the nil-pointer
dereference `imgs[current].Bounds()` in the resize-to-image case. -/
def step (cfg : Cfg) (s : CState) (e : Event) : Option (CState × List Output) :=
  match e with
  | .loadDone idx img =>
    if idx < s.imgs.length then
      if s.current = idx then
        some ({ s with imgs := s.imgs.set idx (some img) },
          showWin cfg.ww cfg.wh (some img) s.origin)
      else
        some ({ s with imgs := s.imgs.set idx (some img) }, [])
    else
      none
  | .draw f => setImage cfg s (s.current : Int) (f s.origin)
  | .resizeToImage =>
    match s.imgs.getD s.current none with
    | some img => some (s, [Output.resizeWin img.rect.dx img.rect.dy])
    | none => none
  | .prevImg => setImage cfg s ((s.current : Int) - 1) ⟨0, 0⟩
  | .nextImg => setImage cfg s ((s.current : Int) + 1) ⟨0, 0⟩
  | .panStart pt => some ({ s with panStart := pt, panOrigin := s.origin }, [])
  | .panStep pt =>
    let xd := s.panStart.x - pt.x
    let yd := s.panStart.y - pt.y
    setImage cfg s (s.current : Int) ⟨xd + s.panOrigin.x, yd + s.panOrigin.y⟩
  | .panEnd => some ({ s with panStart := ⟨0, 0⟩, panOrigin := ⟨0, 0⟩ }, [])

/-- Process a finite sequence of events, accumulating the emitted outputs;
`none` as soon as one step faults. -/
def run (cfg : Cfg) (s : CState) : List Event → Option (CState × List Output)
  | [] => some (s, [])
  | e :: es =>
    match step cfg s e with
    | none => none
    | some (s', outs) =>
      match run cfg s' es with
      | none => none
      | some (s'', outs') => some (s'', outs ++ outs')

/-- Initial coordinator state: `nimgs` empty slots, all load triggers
armed, `current = 0`, `origin = (0,0)`, zero pan state. -/
def initState (nimgs : Nat) : CState where
  imgs := List.replicate nimgs none
  loadChans := List.replicate nimgs true
  current := 0
  origin := ⟨0, 0⟩
  panStart := ⟨0, 0⟩
  panOrigin := ⟨0, 0⟩

/-- Well-formedness the running program guarantees: at least one image,
`current` in range, one load channel per slot. -/
def wf (s : CState) : Prop :=
  0 < s.imgs.length ∧ s.current < s.imgs.length ∧
    s.loadChans.length = s.imgs.length

/-- The paint calls recorded in an output list, in order. -/
def paintCalls : List Output → List (VImage × Point)
  | [] => []
  | Output.paint img pt :: rest => (img, pt) :: paintCalls rest
  | _ :: rest => paintCalls rest

/-- How many times the load trigger of slot `i` fired in an output list. -/
def countFires (i : Nat) : List Output → Nat
  | [] => 0
  | Output.fireLoad j :: rest => (if j = i then 1 else 0) + countFires i rest
  | _ :: rest => countFires i rest

/-- Measure, 0 or 1, of whether slot `i`'s load trigger is still armed
(`imgLoadChans[i] != nil`). -/
def armedN (s : CState) (i : Nat) : Nat :=
  if s.loadChans.getD i false then 1 else 0

/-- The events whose processing goes through `setImage` (Switch-To). -/
def isViewEvent : Event → Prop
  | .draw _ => True
  | .prevImg => True
  | .nextImg => True
  | .panStep _ => True
  | _ => False

/-- Environment guarantee on messages: load workers exist only for the
indices `0 .. nimgs - 1`, so a completion always carries an in-range
index. -/
def wfEvent (s : CState) : Event → Prop
  | .loadDone idx _ => idx < s.imgs.length
  | _ => True

/-- Concrete fixture: a 400×300 window with two image names. -/
def cexCfg : Cfg := ⟨400, 300, ["a", "b"]⟩

/-- Concrete fixture: an 800×600 image with zero minimum bound. -/
def bigImg : VImage := ⟨⟨0, 0, 800, 600⟩, "a"⟩

/-- Concrete fixture: load image 0, pan the view to the far corner via a
view-transform request, then switch to the (unloaded) slot 1. -/
def cexEvents : List Event :=
  [Event.loadDone 0 bigImg,
   Event.draw (fun p => ⟨p.x + 1000, p.y + 1000⟩),
   Event.nextImg]

/-- Concrete fixture: a single-slot coordinator whose image is loaded and
whose view is anchored at (3,4). -/
def loadedState : CState :=
  ⟨[some bigImg], [false], 0, ⟨3, 4⟩, ⟨0, 0⟩, ⟨0, 0⟩⟩

theorem normIdx_range (n i : Int) (h : 0 < n) :
    0 ≤ normIdx n i ∧ normIdx n i < n := by
  simp only [normIdx]
  split_ifs <;> omega

theorem getD_set {α : Type} (l : List α) (j i : Nat) (b d : α) :
    (l.set j b).getD i d = if j = i ∧ j < l.length then b else l.getD i d := by
  by_cases hji : j = i
  · subst hji
    by_cases hl : j < l.length
    · simp [List.getD_eq_getElem?_getD, List.getElem?_set, hl]
    · rw [List.set_eq_of_length_le (by omega)]
      simp [hl]
  · simp [List.getD_eq_getElem?_getD, List.getElem?_set, hji]

theorem paintCalls_append (a b : List Output) :
    paintCalls (a ++ b) = paintCalls a ++ paintCalls b := by
  induction a with
  | nil => rfl
  | cons o rest ih => cases o <;> simp [paintCalls, ih]

theorem countFires_append (i : Nat) (a b : List Output) :
    countFires i (a ++ b) = countFires i a + countFires i b := by
  induction a with
  | nil => simp [countFires]
  | cons o rest ih => cases o <;> simp [countFires, ih, Nat.add_assoc]

theorem paintCalls_showWin (ww wh : Int) (img : VImage) (pt : Point) :
    paintCalls (showWin ww wh (some img) pt) =
      [(img, originTrans pt ww wh (some img))] := rfl

theorem countFires_showWin (i : Nat) (ww wh : Int) (img : Option VImage) (pt : Point) :
    countFires i (showWin ww wh img pt) = 0 := by
  cases img <;> rfl

theorem armed_lt {s : CState} {i : Nat} (h : s.loadChans.getD i false = true) :
    i < s.loadChans.length := by
  by_contra hge
  rw [List.getD_eq_getElem?_getD, List.getElem?_eq_none (by omega)] at h
  cases h

theorem setImage_frame {cfg : Cfg} {s : CState} {i0 : Int} {pt : Point}
    {s' : CState} {outs : List Output}
    (h : setImage cfg s i0 pt = some (s', outs)) :
    s'.imgs = s.imgs ∧ s'.panStart = s.panStart ∧ s'.panOrigin = s.panOrigin ∧
      (s'.current : Int) = normIdx (s.imgs.length : Int) i0 := by
  simp only [setImage] at h
  split at h
  case isTrue hin =>
    split at h
    · split at h <;>
        (simp only [Option.some.injEq, Prod.mk.injEq] at h;
         obtain ⟨h1, h2⟩ := h; subst h1;
         exact ⟨rfl, rfl, rfl, Int.toNat_of_nonneg hin.1⟩)
    · simp only [Option.some.injEq, Prod.mk.injEq] at h
      obtain ⟨h1, h2⟩ := h; subst h1
      exact ⟨rfl, rfl, rfl, Int.toNat_of_nonneg hin.1⟩
  case isFalse => exact absurd h (by simp)

theorem setImage_current {cfg : Cfg} {s : CState} {i0 : Int} {pt : Point}
    {s' : CState} {outs : List Output}
    (h : setImage cfg s i0 pt = some (s', outs)) :
    s'.current = (normIdx (s.imgs.length : Int) i0).toNat := by
  have h4 := (setImage_frame h).2.2.2
  omega

theorem setImage_isSome (cfg : Cfg) (s : CState) (i0 : Int) (pt : Point)
    (h : 0 < s.imgs.length) : (setImage cfg s i0 pt).isSome := by
  have hr := normIdx_range (s.imgs.length : Int) i0 (by exact_mod_cast h)
  simp only [setImage]
  rw [if_pos hr]
  split
  · split <;> rfl
  · rfl

theorem setImage_unloaded {cfg : Cfg} {s : CState} {i0 : Int} {pt : Point}
    {s' : CState} {outs : List Output}
    (h : setImage cfg s i0 pt = some (s', outs))
    (hslot : s.imgs.getD (normIdx (s.imgs.length : Int) i0).toNat none = none) :
    s'.origin = s.origin ∧ paintCalls outs = [] := by
  simp only [setImage] at h
  split at h
  case isTrue hin =>
    split at h
    case _ heq =>
      split at h <;>
        (simp only [Option.some.injEq, Prod.mk.injEq] at h;
         obtain ⟨h1, h2⟩ := h; subst h1; subst h2;
         refine ⟨rfl, ?_⟩;
         simp [paintCalls_append, paintCalls];
         split_ifs <;> simp [paintCalls])
    case _ img heq =>
      rw [heq] at hslot
      cases hslot
  case isFalse => exact absurd h (by simp)

theorem setImage_loaded {cfg : Cfg} {s : CState} {i0 : Int} {pt : Point}
    {s' : CState} {outs : List Output} {img : VImage}
    (h : setImage cfg s i0 pt = some (s', outs))
    (hslot : s.imgs.getD (normIdx (s.imgs.length : Int) i0).toNat none = some img) :
    s'.origin = originTrans pt cfg.ww cfg.wh (some img) ∧
      s'.loadChans = s.loadChans ∧
      paintCalls outs = [(img, originTrans (originTrans pt cfg.ww cfg.wh (some img))
        cfg.ww cfg.wh (some img))] := by
  simp only [setImage] at h
  split at h
  case isTrue hin =>
    split at h
    case _ heq =>
      rw [heq] at hslot
      cases hslot
    case _ img' heq =>
      rw [heq] at hslot
      injection hslot with hslot
      subst hslot
      simp only [Option.some.injEq, Prod.mk.injEq] at h
      obtain ⟨h1, h2⟩ := h; subst h1; subst h2
      refine ⟨rfl, rfl, ?_⟩
      simp [paintCalls_append, paintCalls_showWin]
      split_ifs <;> simp [paintCalls]
  case isFalse => exact absurd h (by simp)

theorem countFires_clearOut (i : Nat) (c : Prop) [Decidable c] :
    countFires i (if c then [] else [Output.clearAll]) = 0 := by
  split_ifs <;> rfl

theorem setImage_fires {cfg : Cfg} {s : CState} {i0 : Int} {pt : Point}
    {s' : CState} {outs : List Output} (i : Nat)
    (h : setImage cfg s i0 pt = some (s', outs)) :
    countFires i outs + armedN s' i ≤ armedN s i := by
  simp only [setImage] at h
  split at h
  case isTrue hin =>
    split at h
    case _ heq =>
      split at h
      case isTrue harm =>
        simp only [Option.some.injEq, Prod.mk.injEq] at h
        obtain ⟨h1, h2⟩ := h; subst h1; subst h2
        have hlt := armed_lt harm
        rw [countFires_append, countFires_append, countFires_clearOut]
        simp only [armedN, getD_set]
        by_cases hij : (normIdx (s.imgs.length : Int) i0).toNat = i
        · subst hij
          rw [List.getD_eq_getElem?_getD] at harm
          simp [countFires, harm, Nat.not_le.mpr hlt]
        · simp [countFires, hij]
      case isFalse harm =>
        simp only [Option.some.injEq, Prod.mk.injEq] at h
        obtain ⟨h1, h2⟩ := h; subst h1; subst h2
        rw [countFires_append, countFires_clearOut]
        simp [countFires, armedN]
    case _ img heq =>
      simp only [Option.some.injEq, Prod.mk.injEq] at h
      obtain ⟨h1, h2⟩ := h; subst h1; subst h2
      rw [countFires_append, countFires_clearOut, countFires_showWin]
      simp [armedN]
  case isFalse => exact absurd h (by simp)

theorem step_fires {cfg : Cfg} {s : CState} {e : Event}
    {s' : CState} {outs : List Output} (i : Nat)
    (h : step cfg s e = some (s', outs)) :
    countFires i outs + armedN s' i ≤ armedN s i := by
  cases e with
  | loadDone idx img =>
    simp only [step] at h
    split at h
    · split at h <;>
        (simp only [Option.some.injEq, Prod.mk.injEq] at h;
         obtain ⟨h1, h2⟩ := h; subst h1; subst h2;
         simp [armedN, countFires_showWin, countFires])
    · exact absurd h (by simp)
  | draw f => exact setImage_fires i h
  | resizeToImage =>
    simp only [step] at h
    split at h
    · simp only [Option.some.injEq, Prod.mk.injEq] at h
      obtain ⟨h1, h2⟩ := h; subst h1; subst h2
      simp [countFires]
    · exact absurd h (by simp)
  | prevImg => exact setImage_fires i h
  | nextImg => exact setImage_fires i h
  | panStart pt =>
    simp only [step, Option.some.injEq, Prod.mk.injEq] at h
    obtain ⟨h1, h2⟩ := h; subst h1; subst h2
    simp [armedN, countFires]
  | panStep pt => exact setImage_fires i h
  | panEnd =>
    simp only [step, Option.some.injEq, Prod.mk.injEq] at h
    obtain ⟨h1, h2⟩ := h; subst h1; subst h2
    simp [armedN, countFires]

theorem run_fires {cfg : Cfg} (i : Nat) :
    ∀ (evs : List Event) (s s' : CState) (outs : List Output),
      run cfg s evs = some (s', outs) →
      countFires i outs + armedN s' i ≤ armedN s i := by
  intro evs
  induction evs with
  | nil =>
    intro s s' outs h
    simp only [run, Option.some.injEq, Prod.mk.injEq] at h
    obtain ⟨h1, h2⟩ := h; subst h1; subst h2
    simp [countFires]
  | cons e es ih =>
    intro s s' outs h
    simp only [run] at h
    split at h
    next hstep => exact Option.noConfusion h
    next s1 o1 hstep =>
      split at h
      next hrun => exact Option.noConfusion h
      next s2 o2 hrun =>
        simp only [Option.some.injEq, Prod.mk.injEq] at h
        obtain ⟨h1, h2⟩ := h; subst h1; subst h2
        have ha := step_fires i hstep
        have hb := ih s1 s2 o2 hrun
        rw [countFires_append]
        omega

theorem originTrans_idem (pt : Point) (ww wh : Int) (img : Option VImage) :
    originTrans (originTrans pt ww wh img) ww wh img = originTrans pt ww wh img := by
  cases img with
  | none => rfl
  | some im =>
    simp only [originTrans]
    by_cases hx : im.rect.dx < ww <;> by_cases hy : im.rect.dy < wh <;>
      simp only [hx, hy, if_true, if_false, Point.mk.injEq] <;>
      constructor <;>
      simp only [min_def, max_def] <;> split_ifs <;> omega

/-- Claim C4: the Geometry Transform clamp is idempotent, for every point,
window size and image bounds, including the nil-image case. -/
theorem clamp_idempotent (pt : Point) (ww wh : Int) (img : Option VImage) :
    originTrans (originTrans pt ww wh img) ww wh img = originTrans pt ww wh img :=
  originTrans_idem pt ww wh img

/-- Claim C5: if the image is strictly narrower than the window, the X
coordinate of the clamp result is 0 for every input, and symmetrically
for Y and the height. -/
theorem small_image_pinning (pt : Point) (ww wh : Int) (im : VImage) :
    (im.rect.dx < ww → (originTrans pt ww wh (some im)).x = 0) ∧
    (im.rect.dy < wh → (originTrans pt ww wh (some im)).y = 0) := by
  constructor <;> intro h <;> simp [originTrans, h]

/-- Witness for C5 at a 100×100 image in a 400×300 window. -/
theorem small_image_pinning_witness :
    (originTrans ⟨7, 9⟩ 400 300 (some ⟨⟨0, 0, 100, 100⟩, "s"⟩)).x = 0 ∧
    (originTrans ⟨7, 9⟩ 400 300 (some ⟨⟨0, 0, 100, 100⟩, "s"⟩)).y = 0 :=
  ⟨(small_image_pinning ⟨7, 9⟩ 400 300 ⟨⟨0, 0, 100, 100⟩, "s"⟩).1 (by decide),
   (small_image_pinning ⟨7, 9⟩ 400 300 ⟨⟨0, 0, 100, 100⟩, "s"⟩).2 (by decide)⟩

/-- Claim C3 as stated is false: with a negative minimum bound the clamp
result can be negative, outside `[0, minX + max 0 (imgW - winW)]`.
Concretely, bounds (-200,-200)-(300,100) (a 500×300 image) in a 400×300
window clamp (0,0) to (-100,-200), and -100 < 0. -/
theorem clamp_range_counterexample :
    originTrans ⟨0, 0⟩ 400 300 (some ⟨⟨-200, -200, 300, 100⟩, "n"⟩) = ⟨-100, -200⟩ ∧
    ¬ 0 ≤ (originTrans ⟨0, 0⟩ 400 300 (some ⟨⟨-200, -200, 300, 100⟩, "n"⟩)).x := by
  decide

/-- Claim C3 amended: for images whose minimum bound is componentwise
nonnegative, the clamp result lies within
`[0, minX + max 0 (imgW - winW)] × [0, minY + max 0 (imgH - winH)]`;
and the spec's concrete scenario holds: a 400×300 window and an 800×600
image clamp candidate (1000,1000) to (400,300). -/
theorem clamp_range_amended (pt : Point) (ww wh : Int) (im : VImage)
    (hx : 0 ≤ im.rect.minX) (hy : 0 ≤ im.rect.minY) :
    (0 ≤ (originTrans pt ww wh (some im)).x ∧
     (originTrans pt ww wh (some im)).x ≤ im.rect.minX + max 0 (im.rect.dx - ww) ∧
     0 ≤ (originTrans pt ww wh (some im)).y ∧
     (originTrans pt ww wh (some im)).y ≤ im.rect.minY + max 0 (im.rect.dy - wh)) ∧
    originTrans ⟨1000, 1000⟩ 400 300 (some ⟨⟨0, 0, 800, 600⟩, "a"⟩) = ⟨400, 300⟩ := by
  refine ⟨?_, by decide⟩
  simp only [originTrans]
  by_cases h1 : im.rect.dx < ww <;> by_cases h2 : im.rect.dy < wh <;>
    simp only [h1, h2, if_true, if_false] <;>
    refine ⟨?_, ?_, ?_, ?_⟩ <;>
    ((try simp only [min_def, max_def]); (try split_ifs) <;> omega)

/-- Witness for the amended C3 at the 800×600 image in the 400×300 window. -/
theorem clamp_range_witness :
    (0 ≤ (originTrans ⟨5, 5⟩ 400 300 (some ⟨⟨0, 0, 800, 600⟩, "a"⟩)).x ∧
     (originTrans ⟨5, 5⟩ 400 300 (some ⟨⟨0, 0, 800, 600⟩, "a"⟩)).x ≤
       (⟨0, 0, 800, 600⟩ : Rect).minX + max 0 ((⟨0, 0, 800, 600⟩ : Rect).dx - 400) ∧
     0 ≤ (originTrans ⟨5, 5⟩ 400 300 (some ⟨⟨0, 0, 800, 600⟩, "a"⟩)).y ∧
     (originTrans ⟨5, 5⟩ 400 300 (some ⟨⟨0, 0, 800, 600⟩, "a"⟩)).y ≤
       (⟨0, 0, 800, 600⟩ : Rect).minY + max 0 ((⟨0, 0, 800, 600⟩ : Rect).dy - 300)) ∧
    originTrans ⟨1000, 1000⟩ 400 300 (some ⟨⟨0, 0, 800, 600⟩, "a"⟩) = ⟨400, 300⟩ :=
  clamp_range_amended ⟨5, 5⟩ 400 300 ⟨⟨0, 0, 800, 600⟩, "a"⟩ (by decide) (by decide)

/-- Claim C6: Previous/Next wraparound, for any well-formed state. -/
theorem nav_wraparound (cfg : Cfg) (s : CState) (hwf : wf s) :
    (∀ (s' : CState) (outs : List Output),
      step cfg s Event.nextImg = some (s', outs) →
      s'.current = if s.current = s.imgs.length - 1 then 0 else s.current + 1) ∧
    (∀ (s' : CState) (outs : List Output),
      step cfg s Event.prevImg = some (s', outs) →
      s'.current = if s.current = 0 then s.imgs.length - 1 else s.current - 1) := by
  obtain ⟨hn, hc, -⟩ := hwf
  constructor <;> intro s' outs h <;> simp only [step] at h <;>
    (rw [setImage_current h]; simp only [normIdx]; split_ifs <;> omega)

/-- Witness for C6: Next from slot 0 of 2 lands on slot 1. -/
theorem nav_wraparound_witness :
    (⟨[none, none], [true, false], 1, ⟨0, 0⟩, ⟨0, 0⟩, ⟨0, 0⟩⟩ : CState).current =
      if (initState 2).current = (initState 2).imgs.length - 1 then 0
      else (initState 2).current + 1 :=
  (nav_wraparound cexCfg (initState 2) (by unfold wf; decide)).1
    ⟨[none, none], [true, false], 1, ⟨0, 0⟩, ⟨0, 0⟩, ⟨0, 0⟩⟩
    [Output.clearAll, Output.nameSet "b - Loading...", Output.fireLoad 1] rfl

/-- Claim C2 as stated is false: a resize-to-image request while the
current slot is still unloaded dereferences the nil image
(`imgs[current].Bounds()`), modelled here as the faulting `none` step. -/
theorem resize_nil_counterexample :
    step cexCfg (initState 1) Event.resizeToImage = none := rfl

/-- Claim C2 amended: every event other than a resize-to-image on an
unloaded current slot is processed without any fault; absent images
degrade to the loading placeholder or a clamped view. -/
theorem coordinator_no_fault_amended (cfg : Cfg) (s : CState) (e : Event)
    (hwf : wf s) (hev : wfEvent s e)
    (hres : e = Event.resizeToImage → s.imgs.getD s.current none ≠ none) :
    (step cfg s e).isSome := by
  obtain ⟨hn, hc, hl⟩ := hwf
  cases e with
  | loadDone idx img =>
    simp only [wfEvent] at hev
    simp only [step]
    rw [if_pos hev]
    split <;> rfl
  | draw f => exact setImage_isSome cfg s _ _ hn
  | resizeToImage =>
    have hg := hres rfl
    simp only [step]
    cases hgd : s.imgs.getD s.current none with
    | none => exact absurd hgd hg
    | some img => rfl
  | prevImg => exact setImage_isSome cfg s _ _ hn
  | nextImg => exact setImage_isSome cfg s _ _ hn
  | panStart pt => rfl
  | panStep pt => exact setImage_isSome cfg s _ _ hn
  | panEnd => rfl

/-- Witness for the amended C2: a Previous request on a fresh single-slot
state succeeds. -/
theorem coordinator_no_fault_witness :
    (step cexCfg (initState 1) Event.prevImg).isSome :=
  coordinator_no_fault_amended cexCfg (initState 1) Event.prevImg
    (by unfold wf; decide) trivial (fun h => Event.noConfusion h)

/-- Claim C7: over any event sequence from the initial state each slot's
load trigger fires at most once; moreover a Switch-To reaching a
still-unloaded slot whose trigger is armed fires it exactly once and
consumes it. -/
theorem trigger_one_shot (cfg : Cfg) (nimgs : Nat) (evs : List Event)
    (s : CState) (outs : List Output) (i : Nat)
    (h : run cfg (initState nimgs) evs = some (s, outs)) :
    countFires i outs ≤ 1 ∧
    (∀ (pt : Point) (s' : CState) (outs' : List Output),
      i < s.imgs.length → s.imgs.getD i none = none →
      s.loadChans.getD i false = true →
      setImage cfg s (i : Int) pt = some (s', outs') →
      countFires i outs' = 1 ∧ s'.loadChans.getD i false = false) := by
  constructor
  · have h1 := run_fires i evs (initState nimgs) s outs h
    have h2 : armedN (initState nimgs) i ≤ 1 := by
      unfold armedN; split_ifs <;> omega
    omega
  · intro pt s' outs' hlt hslot harm hsi
    have hin : (0 : Int) ≤ normIdx (s.imgs.length : Int) (i : Int) ∧
        normIdx (s.imgs.length : Int) (i : Int) < (s.imgs.length : Int) :=
      normIdx_range _ _ (by omega)
    have hni : (normIdx (s.imgs.length : Int) (i : Int)).toNat = i := by
      simp only [normIdx]; split_ifs <;> omega
    simp only [setImage, hni] at hsi
    rw [if_pos hin] at hsi
    split at hsi
    case _ heq =>
      split at hsi
      case isTrue harm2 =>
        simp only [Option.some.injEq, Prod.mk.injEq] at hsi
        obtain ⟨h1, h2⟩ := hsi; subst h1; subst h2
        constructor
        · rw [countFires_append, countFires_append, countFires_clearOut]
          simp [countFires]
        · rw [getD_set]
          simp [armed_lt harm]
      case isFalse harm2 => exact absurd harm harm2
    case _ img heq =>
      rw [hslot] at heq
      exact Option.noConfusion heq

/-- Witness for C7: the run consisting of one Next request from a fresh
two-slot state fires trigger 1 exactly once. -/
theorem trigger_one_shot_witness :
    countFires 1 [Output.clearAll, Output.nameSet "b - Loading...",
      Output.fireLoad 1] ≤ 1 :=
  (trigger_one_shot cexCfg 2 [Event.nextImg]
    ⟨[none, none], [true, false], 1, ⟨0, 0⟩, ⟨0, 0⟩, ⟨0, 0⟩⟩
    [Output.clearAll, Output.nameSet "b - Loading...", Output.fireLoad 1] 1 rfl).1

/-- Claim C9: a load-completion stores the image in its slot, repaints
with the stored origin re-clamped only when the index is current, and
never changes `current`, `origin`, the pan state or the triggers. -/
theorem load_completion_effect (cfg : Cfg) (s : CState) (idx : Nat) (img : VImage)
    (s' : CState) (outs : List Output)
    (h : step cfg s (Event.loadDone idx img) = some (s', outs)) :
    s'.imgs.getD idx none = some img ∧ s'.current = s.current ∧
      s'.origin = s.origin ∧ s'.panStart = s.panStart ∧ s'.panOrigin = s.panOrigin ∧
      s'.loadChans = s.loadChans ∧
      (idx ≠ s.current → outs = []) ∧
      (idx = s.current →
        paintCalls outs = [(img, originTrans s.origin cfg.ww cfg.wh (some img))]) := by
  simp only [step] at h
  split at h
  case isTrue hidx =>
    split at h
    case isTrue hc =>
      simp only [Option.some.injEq, Prod.mk.injEq] at h
      obtain ⟨h1, h2⟩ := h; subst h1; subst h2
      refine ⟨?_, rfl, rfl, rfl, rfl, rfl, ?_, ?_⟩
      · rw [getD_set]; simp [hidx]
      · intro hne; exact absurd hc.symm hne
      · intro _; exact paintCalls_showWin cfg.ww cfg.wh img s.origin
    case isFalse hc =>
      simp only [Option.some.injEq, Prod.mk.injEq] at h
      obtain ⟨h1, h2⟩ := h; subst h1; subst h2
      refine ⟨?_, rfl, rfl, rfl, rfl, rfl, fun _ => rfl, ?_⟩
      · rw [getD_set]; simp [hidx]
      · intro heq; exact absurd heq.symm hc
  case isFalse => exact absurd h (by simp)

/-- Witness for C9: completing slot 0 of a fresh two-slot state stores
the image there. -/
theorem load_completion_witness :
    (⟨[some bigImg, none], [true, true], 0, ⟨0, 0⟩, ⟨0, 0⟩, ⟨0, 0⟩⟩ :
      CState).imgs.getD 0 none = some bigImg :=
  (load_completion_effect cexCfg (initState 2) 0 bigImg
    ⟨[some bigImg, none], [true, true], 0, ⟨0, 0⟩, ⟨0, 0⟩, ⟨0, 0⟩⟩
    [Output.paint bigImg ⟨0, 0⟩, Output.nameSet "a (800x600)"] rfl).1

/-- Claim C10: a Switch-To that reaches an unloaded slot keeps the stored
origin, the slots and the pan state unchanged and paints nothing; only
`current`, the window surface/title and the trigger state are touched. -/
theorem switch_unloaded_frame (cfg : Cfg) (s : CState) (e : Event)
    (s' : CState) (outs : List Output) (he : isViewEvent e)
    (h : step cfg s e = some (s', outs))
    (hslot : s.imgs.getD s'.current none = none) :
    s'.origin = s.origin ∧ s'.imgs = s.imgs ∧ s'.panStart = s.panStart ∧
      s'.panOrigin = s.panOrigin ∧ paintCalls outs = [] := by
  cases e with
  | loadDone idx img => exact absurd he (by simp [isViewEvent])
  | draw f =>
    simp only [step] at h
    have hfr := setImage_frame h
    rw [setImage_current h] at hslot
    have hu := setImage_unloaded h hslot
    exact ⟨hu.1, hfr.1, hfr.2.1, hfr.2.2.1, hu.2⟩
  | resizeToImage => exact absurd he (by simp [isViewEvent])
  | prevImg =>
    simp only [step] at h
    have hfr := setImage_frame h
    rw [setImage_current h] at hslot
    have hu := setImage_unloaded h hslot
    exact ⟨hu.1, hfr.1, hfr.2.1, hfr.2.2.1, hu.2⟩
  | nextImg =>
    simp only [step] at h
    have hfr := setImage_frame h
    rw [setImage_current h] at hslot
    have hu := setImage_unloaded h hslot
    exact ⟨hu.1, hfr.1, hfr.2.1, hfr.2.2.1, hu.2⟩
  | panStart pt => exact absurd he (by simp [isViewEvent])
  | panStep pt =>
    simp only [step] at h
    have hfr := setImage_frame h
    rw [setImage_current h] at hslot
    have hu := setImage_unloaded h hslot
    exact ⟨hu.1, hfr.1, hfr.2.1, hfr.2.2.1, hu.2⟩
  | panEnd => exact absurd he (by simp [isViewEvent])

/-- Witness for C10: switching to the unloaded slot 1 keeps the origin. -/
theorem switch_unloaded_witness :
    (⟨[none, none], [true, false], 1, ⟨0, 0⟩, ⟨0, 0⟩, ⟨0, 0⟩⟩ : CState).origin =
        (initState 2).origin ∧
      (⟨[none, none], [true, false], 1, ⟨0, 0⟩, ⟨0, 0⟩, ⟨0, 0⟩⟩ : CState).imgs =
        (initState 2).imgs ∧
      (⟨[none, none], [true, false], 1, ⟨0, 0⟩, ⟨0, 0⟩, ⟨0, 0⟩⟩ : CState).panStart =
        (initState 2).panStart ∧
      (⟨[none, none], [true, false], 1, ⟨0, 0⟩, ⟨0, 0⟩, ⟨0, 0⟩⟩ : CState).panOrigin =
        (initState 2).panOrigin ∧
      paintCalls [Output.clearAll, Output.nameSet "b - Loading...",
        Output.fireLoad 1] = [] :=
  switch_unloaded_frame cexCfg (initState 2) Event.nextImg
    ⟨[none, none], [true, false], 1, ⟨0, 0⟩, ⟨0, 0⟩, ⟨0, 0⟩⟩
    [Output.clearAll, Output.nameSet "b - Loading...", Output.fireLoad 1]
    trivial rfl rfl

theorem setImage_paints_clamped {cfg : Cfg} {s : CState} {i0 : Int} {pt : Point}
    {s' : CState} {outs : List Output}
    (h : setImage cfg s i0 pt = some (s', outs)) :
    (∀ pr ∈ paintCalls outs, originTrans pr.2 cfg.ww cfg.wh (some pr.1) = pr.2) ∧
    (∀ img : VImage, s.imgs.getD s'.current none = some img →
      originTrans s'.origin cfg.ww cfg.wh (some img) = s'.origin) := by
  constructor
  · intro pr hpr
    cases hgd : s.imgs.getD (normIdx (s.imgs.length : Int) i0).toNat none with
    | none =>
      rw [(setImage_unloaded h hgd).2] at hpr
      exact absurd hpr (List.not_mem_nil pr)
    | some img0 =>
      rw [(setImage_loaded h hgd).2.2] at hpr
      simp only [List.mem_singleton] at hpr
      rw [hpr]
      exact originTrans_idem (originTrans pt cfg.ww cfg.wh (some img0))
        cfg.ww cfg.wh (some img0)
  · intro img hslot
    rw [setImage_current h] at hslot
    rw [(setImage_loaded h hslot).1]
    exact originTrans_idem pt cfg.ww cfg.wh (some img)

/-- Claim C8: pan-start at `p0` followed by pan-step at the same `p0`
stores the clamp of the origin that was current at pan-start; if that
origin was already clamped it is unchanged. -/
theorem pan_round_trip (cfg : Cfg) (s : CState) (p0 : Point) (img : VImage)
    (hwf : wf s) (hslot : s.imgs.getD s.current none = some img)
    (s' : CState) (outs : List Output)
    (h : run cfg s [Event.panStart p0, Event.panStep p0] = some (s', outs)) :
    s'.origin = originTrans s.origin cfg.ww cfg.wh (some img) ∧
    (originTrans s.origin cfg.ww cfg.wh (some img) = s.origin →
      s'.origin = s.origin) := by
  obtain ⟨hn, hc, hl⟩ := hwf
  simp only [run, step] at h
  split at h
  next hrn => exact Option.noConfusion h
  next s2 o2 hrn =>
    simp only [Option.some.injEq, Prod.mk.injEq] at h
    obtain ⟨h1, h2⟩ := h
    subst h1
    split at hrn
    next hsi => exact Option.noConfusion hrn
    next s3 o3 hsi =>
    simp only [Option.some.injEq, Prod.mk.injEq] at hrn
    obtain ⟨hr1, hr2⟩ := hrn
    subst hr1
    have hni : (normIdx (s.imgs.length : Int) (s.current : Int)).toNat = s.current := by
      simp only [normIdx]; split_ifs <;> omega
    have hslot2 : ({ s with panStart := p0, panOrigin := s.origin } : CState).imgs.getD
        (normIdx (({ s with panStart := p0, panOrigin := s.origin } : CState).imgs.length : Int)
          (({ s with panStart := p0, panOrigin := s.origin } : CState).current : Int)).toNat
        none = some img := by
      show s.imgs.getD (normIdx (s.imgs.length : Int) (s.current : Int)).toNat none = some img
      rw [hni]; exact hslot
    have hload := setImage_loaded hsi hslot2
    have hcand : (⟨p0.x - p0.x + s.origin.x, p0.y - p0.y + s.origin.y⟩ : Point) = s.origin := by
      rw [show s.origin = ⟨s.origin.x, s.origin.y⟩ from rfl]
      simp only [Point.mk.injEq]
      constructor <;> ring
    rw [hcand] at hload
    refine ⟨hload.1, fun hfix => ?_⟩
    rw [hload.1, hfix]

/-- Witness for C8 at the loaded single-slot state anchored at (3,4). -/
theorem pan_round_trip_witness :
    (⟨[some bigImg], [false], 0, ⟨3, 4⟩, ⟨10, 20⟩, ⟨3, 4⟩⟩ : CState).origin =
      originTrans loadedState.origin cexCfg.ww cexCfg.wh (some bigImg) :=
  (pan_round_trip cexCfg loadedState ⟨10, 20⟩ bigImg (by unfold wf loadedState; decide)
    rfl ⟨[some bigImg], [false], 0, ⟨3, 4⟩, ⟨10, 20⟩, ⟨3, 4⟩⟩
    [Output.paint bigImg ⟨3, 4⟩, Output.nameSet "a (800x600)"] rfl).1

/-- Claim C1 as stated is false: after loading image 0 (800×600), panning
to the far corner via a view-transform, and a Next request onto the
still-unloaded slot 1, the stored origin is (400,300) while the clamped
range for the (absent) current image is the single point (0,0). -/
theorem origin_invariant_counterexample :
    run cexCfg (initState 2) cexEvents =
      some (⟨[some bigImg, none], [true, false], 1, ⟨400, 300⟩, ⟨0, 0⟩, ⟨0, 0⟩⟩,
        [Output.paint bigImg ⟨0, 0⟩, Output.nameSet "a (800x600)",
         Output.paint bigImg ⟨400, 300⟩, Output.nameSet "a (800x600)",
         Output.clearAll, Output.nameSet "b - Loading...", Output.fireLoad 1]) ∧
    originTrans ⟨400, 300⟩ cexCfg.ww cexCfg.wh
      ((⟨[some bigImg, none], [true, false], 1, ⟨400, 300⟩, ⟨0, 0⟩, ⟨0, 0⟩⟩ :
        CState).imgs.getD 1 none) = ⟨0, 0⟩ ∧
    (⟨400, 300⟩ : Point) ≠ (⟨0, 0⟩ : Point) := by
  refine ⟨by decide, by decide, by decide⟩

/-- Claim C1 amended: every origin actually passed to a paint call is a
fixed point of the clamp for the painted image, and a Switch-To that
reaches a loaded slot stores a clamped origin; but after switching to an
unloaded slot the stored origin keeps its previous value, which can lie
outside the clamped range of the (absent) current image. -/
theorem origin_invariant_amended (cfg : Cfg) (s : CState) (e : Event)
    (s' : CState) (outs : List Output)
    (h : step cfg s e = some (s', outs)) :
    (∀ pr ∈ paintCalls outs, originTrans pr.2 cfg.ww cfg.wh (some pr.1) = pr.2) ∧
    (∀ img : VImage, isViewEvent e → s.imgs.getD s'.current none = some img →
      originTrans s'.origin cfg.ww cfg.wh (some img) = s'.origin) := by
  cases e with
  | loadDone idx img0 =>
    refine ⟨?_, fun img hv _ => absurd hv (by simp [isViewEvent])⟩
    simp only [step] at h
    split at h
    case isTrue hidx =>
      split at h
      case isTrue hc =>
        simp only [Option.some.injEq, Prod.mk.injEq] at h
        obtain ⟨h1, h2⟩ := h; subst h1; subst h2
        intro pr hpr
        rw [paintCalls_showWin] at hpr
        simp only [List.mem_singleton] at hpr
        rw [hpr]
        exact originTrans_idem s.origin cfg.ww cfg.wh (some img0)
      case isFalse hc =>
        simp only [Option.some.injEq, Prod.mk.injEq] at h
        obtain ⟨h1, h2⟩ := h; subst h1; subst h2
        intro pr hpr
        exact absurd hpr (List.not_mem_nil pr)
    case isFalse => exact absurd h (by simp)
  | draw f =>
    exact ⟨(setImage_paints_clamped h).1,
      fun img _ hs => (setImage_paints_clamped h).2 img hs⟩
  | resizeToImage =>
    refine ⟨?_, fun img hv _ => absurd hv (by simp [isViewEvent])⟩
    simp only [step] at h
    split at h
    case _ img0 heq =>
      simp only [Option.some.injEq, Prod.mk.injEq] at h
      obtain ⟨h1, h2⟩ := h; subst h1; subst h2
      intro pr hpr
      exact absurd hpr (by simp [paintCalls])
    case _ => exact absurd h (by simp)
  | prevImg =>
    exact ⟨(setImage_paints_clamped h).1,
      fun img _ hs => (setImage_paints_clamped h).2 img hs⟩
  | nextImg =>
    exact ⟨(setImage_paints_clamped h).1,
      fun img _ hs => (setImage_paints_clamped h).2 img hs⟩
  | panStart pt =>
    refine ⟨?_, fun img hv _ => absurd hv (by simp [isViewEvent])⟩
    simp only [step, Option.some.injEq, Prod.mk.injEq] at h
    obtain ⟨h1, h2⟩ := h; subst h1; subst h2
    intro pr hpr
    exact absurd hpr (List.not_mem_nil pr)
  | panStep pt =>
    exact ⟨(setImage_paints_clamped h).1,
      fun img _ hs => (setImage_paints_clamped h).2 img hs⟩
  | panEnd =>
    refine ⟨?_, fun img hv _ => absurd hv (by simp [isViewEvent])⟩
    simp only [step, Option.some.injEq, Prod.mk.injEq] at h
    obtain ⟨h1, h2⟩ := h; subst h1; subst h2
    intro pr hpr
    exact absurd hpr (List.not_mem_nil pr)

/-- Witness for the amended C1: after a view-transform on a loaded slot,
the stored origin (400,300) is a fixed point of the clamp. -/
theorem origin_invariant_amended_witness :
    originTrans (⟨[some bigImg], [false], 0, ⟨400, 300⟩, ⟨0, 0⟩, ⟨0, 0⟩⟩ :
        CState).origin cexCfg.ww cexCfg.wh (some bigImg) =
      (⟨[some bigImg], [false], 0, ⟨400, 300⟩, ⟨0, 0⟩, ⟨0, 0⟩⟩ : CState).origin :=
  (origin_invariant_amended cexCfg ⟨[some bigImg], [false], 0, ⟨3, 4⟩, ⟨0, 0⟩, ⟨0, 0⟩⟩
    (Event.draw (fun p => ⟨p.x + 1000, p.y + 1000⟩))
    ⟨[some bigImg], [false], 0, ⟨400, 300⟩, ⟨0, 0⟩, ⟨0, 0⟩⟩
    [Output.paint bigImg ⟨400, 300⟩, Output.nameSet "a (800x600)"] (by decide)).2
    bigImg trivial rfl
